import Mathlib

/-
Verification of the openbook-candles repository (candle persistence and
market-analytics queries) against its natural-language specification.

The Rust sources embedded here are:
  src/database/insert.rs      (build_candles_upsert_statement)
  src/database/initialize.rs  (create_candles_table: unique index on
                               market_name, start_time, resolution)
  src/database/fetch.rs       (fill and candle queries, trader ranking,
                               coingecko 24h snapshot queries)
  src/structs/openbook.rs     (PgOpenBookFill and its from_row decoder)
  src/structs/coingecko.rs    (PgCoinGecko24HourVolume, PgCoinGecko24HighLow)

Machine numerics (Postgres double precision) are modelled as exact
integers: every operation these queries perform on them (sum, product,
max, min, comparison, equality) is expressible over any linearly
ordered commutative ring, and none of the verified claims depends on
fractional values, so the integers are a faithful computable carrier.
Timestamps are integers too (epoch seconds, so that the SQL interval of
one day is the constant 86400).  Strings interpolated by the
statement builder are modelled as the exact text the Rust code splices:
a DateTime rendered by to_rfc3339 and an f64 rendered by Display are
kept as the rendered strings, which is all the builder ever reads, and
both renderings are injective on their source values.
-/

/-- Single quote character as a one-character string.  The Rust literal
writes it as an escaped quote inside the format string. -/
def singleQuote : String := String.singleton (Char.ofNat 39)

/-- Rendering of a Rust bool by Display, as interpolated by format. -/
def boolStr (b : Bool) : String := if b then "true" else "false"

/-- Candle record, from src/structs/candle.rs as used by insert.rs and
fetch.rs (market_name, start_time, end_time, resolution, open, close,
high, low, volume, complete).  Timestamp and f64 fields are carried as
their rendered text, see the header comment. -/
structure Candle where
  market_name : String
  start_time : String
  end_time : String
  resolution : String
  «open» : String
  close : String
  high : String
  low : String
  volume : String
  complete : Bool
deriving DecidableEq

/-- Text of one VALUES tuple, from the format call in insert.rs lines
6 to 18: every field is spliced verbatim, string fields between single
quotes, with no escaping of the field contents. -/
def valStr (c : Candle) : String :=
  "(" ++ singleQuote ++ c.market_name ++ singleQuote ++ ", " ++
    singleQuote ++ c.start_time ++ singleQuote ++ ", " ++
    singleQuote ++ c.end_time ++ singleQuote ++ ", " ++
    singleQuote ++ c.resolution ++ singleQuote ++ ", " ++
    c.«open» ++ ", " ++ c.close ++ ", " ++ c.high ++ ", " ++ c.low ++ ", " ++
    c.volume ++ ", " ++ boolStr c.complete ++ ")"

/-- The INSERT head of the statement, insert.rs line 4. -/
def insertHead : String :=
  "INSERT INTO openbook.candles (market_name, start_time, end_time, resolution, open, close, high, low, volume, complete) VALUES"

/-- The conflict clause, insert.rs lines 27 to 35, including its exact
whitespace.  It updates open, close, high, low, volume and complete and
nothing else. -/
def handleConflict : String :=
  "ON CONFLICT (market_name, start_time, resolution) \n    DO UPDATE SET \n    open=excluded.open, \n    close=excluded.close, \n    high=excluded.high, \n    low=excluded.low,\n    volume=excluded.volume,\n    complete=excluded.complete\n    "

/-- Embedding of build_candles_upsert_statement (insert.rs lines 3 to
39): fold over the enumerated candle list, appending the first tuple
after a space and every later tuple after a comma, then append the
conflict clause after a space. -/
def build_candles_upsert_statement (candles : List Candle) : String :=
  let stmt := candles.enum.foldl
    (fun acc p =>
      if p.fst == 0 then acc ++ " " ++ valStr p.snd
      else acc ++ ", " ++ valStr p.snd)
    insertHead
  stmt ++ " " ++ handleConflict

/-- Comma-separated rendering of the VALUES tuples of a batch. -/
def valuesList : List Candle → String
  | [] => ""
  | [c] => valStr c
  | c :: rest => valStr c ++ ", " ++ valuesList rest

/-- Key of the unique index idx_market_time_resolution created by
create_candles_table (initialize.rs lines 103 to 106). -/
def candleKey (c : Candle) : String × String × String :=
  (c.market_name, c.start_time, c.resolution)

/-- A stored candles table: a list of rows. -/
abbrev CandleStore := List Candle

/-- The uniqueness constraint enforced by idx_market_time_resolution. -/
def storeUnique (s : CandleStore) : Prop :=
  s.Pairwise (fun a b => candleKey a ≠ candleKey b)

/-- Row produced by the DO UPDATE SET arm of the statement built by
build_candles_upsert_statement: the six listed columns are taken from
the excluded (incoming) row, end_time stays that of the stored row, and
the key columns are unchanged (they are equal on both rows whenever the
arm fires). -/
def mergeFields (r c : Candle) : Candle :=
  { market_name := c.market_name
    start_time := c.start_time
    end_time := r.end_time
    resolution := c.resolution
    «open» := c.«open»
    close := c.close
    high := c.high
    low := c.low
    volume := c.volume
    complete := c.complete }

/-- SQL semantics of one VALUES tuple of the built statement against a
table carrying the unique index: on a key conflict the DO UPDATE SET arm
rewrites the conflicting row through mergeFields, otherwise the row is
appended. -/
def upsertRow (c : Candle) (s : CandleStore) : CandleStore :=
  if ∃ r ∈ s, candleKey r = candleKey c then
    s.map (fun r => if candleKey r = candleKey c then mergeFields r c else r)
  else
    s ++ [c]

/-- Point lookup by unique key. -/
def storeLookup (s : CandleStore) (k : String × String × String) : Option Candle :=
  s.find? (fun r => decide (candleKey r = k))

/-- Sequential application of the VALUES tuples of one statement. -/
def runUpserts (cs : List Candle) (s : CandleStore) : CandleStore :=
  cs.foldl (fun st c => upsertRow c st) s

/-- Execution of the whole built statement.  Postgres rejects an INSERT
ON CONFLICT DO UPDATE whose tuple list touches the same index key twice
(cannot affect row a second time), which is modelled as none; otherwise
the tuples apply in order. -/
def mergeUpsert (cs : List Candle) (s : CandleStore) : Option CandleStore :=
  if (cs.map candleKey).Nodup then some (runUpserts cs s) else none

theorem candleKey_mergeFields (r c : Candle) : candleKey (mergeFields r c) = candleKey c := rfl

theorem mergeFields_self (c : Candle) : mergeFields c c = c := rfl

theorem mergeFields_absorb (r c : Candle) : mergeFields (mergeFields r c) c = mergeFields r c := rfl

theorem candleKey_updateArm (c r : Candle) :
    candleKey (if candleKey r = candleKey c then mergeFields r c else r) = candleKey r := by
  by_cases h : candleKey r = candleKey c
  · simp [h, candleKey_mergeFields]
  · simp [h]

theorem find?_map_key (s : CandleStore) (g : Candle → Candle)
    (hg : ∀ r, candleKey (g r) = candleKey r) (k : String × String × String) :
    (s.map g).find? (fun r => decide (candleKey r = k)) =
      (s.find? (fun r => decide (candleKey r = k))).map g := by
  induction s with
  | nil => rfl
  | cons r s ih =>
    by_cases h : candleKey r = k
    · simp [List.find?_cons, hg, h]
    · simp [List.find?_cons, hg, h, ih]

theorem storeLookup_upsertRow (c : Candle) (s : CandleStore) (k : String × String × String) :
    storeLookup (upsertRow c s) k =
      if k = candleKey c then
        some ((storeLookup s k).elim c (fun r => mergeFields r c))
      else storeLookup s k := by
  unfold upsertRow storeLookup
  split
  next hex =>
    rw [find?_map_key _ _ (candleKey_updateArm c) k]
    by_cases hk : k = candleKey c
    · subst hk
      have hs : ((s.find? fun r => decide (candleKey r = candleKey c))).isSome := by
        refine List.find?_isSome.mpr ?_
        obtain ⟨r, hr, hrk⟩ := hex
        exact ⟨r, hr, by simp [hrk]⟩
      obtain ⟨r₁, hr₁⟩ := Option.isSome_iff_exists.mp hs
      have hk₁ : candleKey r₁ = candleKey c := by simpa using List.find?_some hr₁
      simp [hr₁, hk₁]
    · rw [if_neg hk]
      cases hfind : s.find? (fun r => decide (candleKey r = k)) with
      | none => simp
      | some r₁ =>
        have hk₁ : candleKey r₁ = k := by simpa using List.find?_some hfind
        have : ¬ candleKey r₁ = candleKey c := by
          rw [hk₁]; exact fun hh => hk hh
        simp [this]
  next hex =>
    rw [List.find?_append]
    by_cases hk : k = candleKey c
    · subst hk
      have hnone : s.find? (fun r => decide (candleKey r = candleKey c)) = none := by
        rw [List.find?_eq_none]
        intro r hr
        simp only [decide_eq_true_eq]
        exact fun hkey => hex ⟨r, hr, hkey⟩
      simp [hnone, List.find?_cons]
    · rw [if_neg hk]
      have hc : ([c].find? fun r => decide (candleKey r = k)) = none := by
        have hck : ¬ candleKey c = k := fun h => hk h.symm
        simp [List.find?_cons, hck]
      cases hfind : s.find? (fun r => decide (candleKey r = k)) with
      | none => simp [hfind, hc, Option.or]
      | some r₁ => simp [hfind, Option.or]

theorem storeLookup_runUpserts_of_ne (cs : List Candle) (s : CandleStore)
    (k : String × String × String) (h : ∀ c ∈ cs, candleKey c ≠ k) :
    storeLookup (runUpserts cs s) k = storeLookup s k := by
  induction cs generalizing s with
  | nil => rfl
  | cons c cs ih =>
    have hstep : runUpserts (c :: cs) s = runUpserts cs (upsertRow c s) := rfl
    rw [hstep, ih _ (fun c' hc' => h c' (List.mem_cons_of_mem c hc')),
      storeLookup_upsertRow, if_neg (fun e => h c (List.mem_cons_self c cs) e.symm)]

theorem storeLookup_runUpserts_mem (cs : List Candle) (s : CandleStore)
    (hnd : (cs.map candleKey).Nodup) (c : Candle) (hc : c ∈ cs) :
    storeLookup (runUpserts cs s) (candleKey c) =
      some ((storeLookup s (candleKey c)).elim c (fun r => mergeFields r c)) := by
  induction cs generalizing s with
  | nil => cases hc
  | cons c₀ cs ih =>
    have hstep : runUpserts (c₀ :: cs) s = runUpserts cs (upsertRow c₀ s) := rfl
    have hnd' : (∀ x ∈ cs, ¬candleKey x = candleKey c₀) ∧ (cs.map candleKey).Nodup := by
      simpa [List.nodup_cons] using hnd
    rcases List.mem_cons.mp hc with rfl | hc
    · have hne : ∀ c' ∈ cs, candleKey c' ≠ candleKey c := fun c' hc' => hnd'.1 c' hc'
      rw [hstep, storeLookup_runUpserts_of_ne cs _ _ hne, storeLookup_upsertRow, if_pos rfl]
    · have hne : candleKey c ≠ candleKey c₀ := hnd'.1 c hc
      rw [hstep, ih _ hnd'.2 hc, storeLookup_upsertRow, if_neg hne]

theorem storeUnique_upsertRow (c : Candle) (s : CandleStore) (h : storeUnique s) :
    storeUnique (upsertRow c s) := by
  unfold upsertRow
  split
  next hex =>
    unfold storeUnique at h ⊢
    rw [List.pairwise_map]
    refine h.imp ?_
    intro a b hab
    rw [candleKey_updateArm, candleKey_updateArm]
    exact hab
  next hex =>
    unfold storeUnique at h ⊢
    rw [List.pairwise_append]
    refine ⟨h, by simp, ?_⟩
    intro a ha b hb
    have hb' : b = c := by simpa using hb
    subst hb'
    exact fun e => hex ⟨a, ha, e⟩

theorem storeUnique_runUpserts (cs : List Candle) (s : CandleStore) (h : storeUnique s) :
    storeUnique (runUpserts cs s) := by
  induction cs generalizing s with
  | nil => exact h
  | cons c cs ih => exact ih _ (storeUnique_upsertRow c s h)

theorem storeUnique_eq_of_key (s : CandleStore) (h : storeUnique s) (x y : Candle)
    (hx : x ∈ s) (hy : y ∈ s) (hk : candleKey x = candleKey y) : x = y := by
  induction s with
  | nil => cases hx
  | cons r s ih =>
    have h1 : ∀ b ∈ s, candleKey r ≠ candleKey b := (List.pairwise_cons.mp h).1
    have h2 : storeUnique s := (List.pairwise_cons.mp h).2
    rcases List.mem_cons.mp hx with hx' | hx' <;> rcases List.mem_cons.mp hy with hy' | hy'
    · rw [hx', hy']
    · subst hx'
      exact absurd hk (h1 y hy')
    · subst hy'
      exact absurd hk.symm (h1 x hx')
    · exact ih h2 hx' hy'

theorem upsertRow_self_of_merged (c : Candle) (s : CandleStore) (hu : storeUnique s)
    (r : Candle) (hr : storeLookup s (candleKey c) = some r) (hmerge : mergeFields r c = r) :
    upsertRow c s = s := by
  have hrmem : r ∈ s := List.mem_of_find?_eq_some hr
  have hrk : candleKey r = candleKey c := by simpa using List.find?_some hr
  unfold upsertRow
  rw [if_pos ⟨r, hrmem, hrk⟩]
  have hfix : ∀ x ∈ s, (if candleKey x = candleKey c then mergeFields x c else x) = id x := by
    intro x hx
    by_cases hxk : candleKey x = candleKey c
    · have hxr : x = r := storeUnique_eq_of_key s hu x r hx hrmem (by rw [hxk, hrk])
      subst hxr
      simp [hxk, hmerge]
    · simp [hxk]
  rw [List.map_congr_left hfix, List.map_id]

theorem runUpserts_idem_aux (cs : List Candle) (s : CandleStore) (hu : storeUnique s)
    (hinv : ∀ c ∈ cs, ∃ r, storeLookup s (candleKey c) = some r ∧ mergeFields r c = r) :
    runUpserts cs s = s := by
  induction cs with
  | nil => rfl
  | cons c cs ih =>
    obtain ⟨r, hr, hm⟩ := hinv c (List.mem_cons_self c cs)
    have h1 : upsertRow c s = s := upsertRow_self_of_merged c s hu r hr hm
    have hstep : runUpserts (c :: cs) s = runUpserts cs (upsertRow c s) := rfl
    rw [hstep, h1]
    exact ih (fun c' hc' => hinv c' (List.mem_cons_of_mem c hc'))

theorem fold_enumFrom (l : List Candle) (hl : l ≠ []) : ∀ (n : Nat) (acc : String),
    (List.enumFrom (n + 1) l).foldl
      (fun acc p =>
        if p.fst == 0 then acc ++ " " ++ valStr p.snd
        else acc ++ ", " ++ valStr p.snd)
      acc = acc ++ ", " ++ valuesList l := by
  induction l with
  | nil => cases hl rfl
  | cons c rest ih =>
    intro n acc
    cases rest with
    | nil => simp [List.enumFrom, valuesList]
    | cons c' rest' =>
      have hstep : (List.enumFrom (n + 1) (c :: c' :: rest')).foldl
          (fun acc p =>
            if p.fst == 0 then acc ++ " " ++ valStr p.snd
            else acc ++ ", " ++ valStr p.snd) acc
          = (List.enumFrom (n + 2) (c' :: rest')).foldl
          (fun acc p =>
            if p.fst == 0 then acc ++ " " ++ valStr p.snd
            else acc ++ ", " ++ valStr p.snd) (acc ++ ", " ++ valStr c) := by
        simp [List.enumFrom]
      rw [hstep, ih (by simp) (n + 1) (acc ++ ", " ++ valStr c)]
      simp [valuesList, String.append_assoc]

theorem build_stmt_decomp (cs : List Candle) (h : cs ≠ []) :
    build_candles_upsert_statement cs =
      insertHead ++ " " ++ valuesList cs ++ " " ++ handleConflict := by
  cases cs with
  | nil => cases h rfl
  | cons c rest =>
    unfold build_candles_upsert_statement
    cases rest with
    | nil => simp [List.enum, List.enumFrom, valuesList]
    | cons c' rest' =>
      have henum : (c :: c' :: rest').enum = (0, c) :: List.enumFrom 1 (c' :: rest') := by
        simp [List.enum, List.enumFrom]
      rw [henum]
      have hstep : ((0, c) :: List.enumFrom 1 (c' :: rest')).foldl
          (fun acc p =>
            if p.fst == 0 then acc ++ " " ++ valStr p.snd
            else acc ++ ", " ++ valStr p.snd) insertHead
          = (List.enumFrom 1 (c' :: rest')).foldl
          (fun acc p =>
            if p.fst == 0 then acc ++ " " ++ valStr p.snd
            else acc ++ ", " ++ valStr p.snd) (insertHead ++ " " ++ valStr c) := by
        simp
      rw [hstep, fold_enumFrom (c' :: rest') (by simp) 0 (insertHead ++ " " ++ valStr c)]
      simp [valuesList, String.append_assoc]

/-- C1: For a non-empty batch, the statement built by
build_candles_upsert_statement consists of the INSERT head, one VALUES
tuple per candle in order, and the conflict clause; executing it against
a table carrying the unique (market_name, start_time, resolution) index
upserts each candle of the batch: when a row with the same key exists it
is overwritten exactly in open, close, high, low, volume and complete
while its end_time is kept, otherwise the candle is inserted as a new
row, and rows under other keys are untouched. -/
theorem upsert_statement_semantics (cs : List Candle) (s s' : CandleStore)
    (hne : cs ≠ []) (hu : storeUnique s) (hrun : mergeUpsert cs s = some s') :
    build_candles_upsert_statement cs =
        insertHead ++ " " ++ valuesList cs ++ " " ++ handleConflict ∧
    (∀ c ∈ cs, storeLookup s' (candleKey c) =
        some ((storeLookup s (candleKey c)).elim c (fun r =>
          { market_name := c.market_name
            start_time := c.start_time
            end_time := r.end_time
            resolution := c.resolution
            «open» := c.«open»
            close := c.close
            high := c.high
            low := c.low
            volume := c.volume
            complete := c.complete }))) ∧
    (∀ k, (∀ c ∈ cs, candleKey c ≠ k) → storeLookup s' k = storeLookup s k) := by
  have hnd : (cs.map candleKey).Nodup := by
    by_contra h
    unfold mergeUpsert at hrun
    rw [if_neg h] at hrun
    cases hrun
  have hs' : s' = runUpserts cs s := by
    unfold mergeUpsert at hrun
    rw [if_pos hnd] at hrun
    exact (Option.some.inj hrun).symm
  subst hs'
  refine ⟨build_stmt_decomp cs hne, ?_, ?_⟩
  · intro c hc
    exact storeLookup_runUpserts_mem cs s hnd c hc
  · intro k hk
    exact storeLookup_runUpserts_of_ne cs s k hk

/-- Witness for C1 at a concrete one-candle batch against the empty
table: the candle is inserted under its key. -/
theorem upsert_statement_semantics_witness :
    storeLookup (runUpserts [⟨"m", "s0", "e0", "r0", "1", "2", "3", "4", "5", true⟩] [])
        (candleKey ⟨"m", "s0", "e0", "r0", "1", "2", "3", "4", "5", true⟩) =
      some ⟨"m", "s0", "e0", "r0", "1", "2", "3", "4", "5", true⟩ := by
  have h := upsert_statement_semantics
    [⟨"m", "s0", "e0", "r0", "1", "2", "3", "4", "5", true⟩] []
    (runUpserts [⟨"m", "s0", "e0", "r0", "1", "2", "3", "4", "5", true⟩] [])
    (by simp) List.Pairwise.nil (by decide)
  simpa using h.2.1 _ (by simp)

/-- C7: merge-upsert is idempotent: running the built statement a second
time with the same batch leaves the store exactly as after the first
run (and a batch Postgres rejects is rejected both times). -/
theorem mergeUpsert_idempotent (cs : List Candle) (s : CandleStore) (hu : storeUnique s) :
    (mergeUpsert cs s).bind (mergeUpsert cs) = mergeUpsert cs s := by
  by_cases hnd : (cs.map candleKey).Nodup
  · have h1 : mergeUpsert cs s = some (runUpserts cs s) := by
      unfold mergeUpsert
      rw [if_pos hnd]
    rw [h1]
    show mergeUpsert cs (runUpserts cs s) = some (runUpserts cs s)
    unfold mergeUpsert
    rw [if_pos hnd]
    congr 1
    apply runUpserts_idem_aux
    · exact storeUnique_runUpserts cs s hu
    · intro c hc
      refine ⟨(storeLookup s (candleKey c)).elim c (fun r => mergeFields r c),
        storeLookup_runUpserts_mem cs s hnd c hc, ?_⟩
      cases hcase : storeLookup s (candleKey c) with
      | none => exact mergeFields_self c
      | some r => exact mergeFields_absorb r c
  · have h1 : mergeUpsert cs s = none := by
      unfold mergeUpsert
      rw [if_neg hnd]
    rw [h1]
    rfl

/-- Witness for C7 at a concrete batch and the empty (hence unique)
store, with the single application also evaluated. -/
theorem mergeUpsert_idempotent_witness :
    (mergeUpsert [⟨"m", "s0", "e0", "r0", "1", "2", "3", "4", "5", true⟩] []).bind
        (mergeUpsert [⟨"m", "s0", "e0", "r0", "1", "2", "3", "4", "5", true⟩]) =
      mergeUpsert [⟨"m", "s0", "e0", "r0", "1", "2", "3", "4", "5", true⟩] [] ∧
    mergeUpsert [⟨"m", "s0", "e0", "r0", "1", "2", "3", "4", "5", true⟩] [] =
      some [⟨"m", "s0", "e0", "r0", "1", "2", "3", "4", "5", true⟩] :=
  ⟨mergeUpsert_idempotent _ _ List.Pairwise.nil, by decide⟩

/-- C10: on the empty candle list the builder emits the INSERT head
directly followed by the conflict clause, with no VALUES tuple in
between, which is not a well-formed statement. -/
theorem empty_batch_statement_malformed :
    build_candles_upsert_statement [] = insertHead ++ " " ++ handleConflict := rfl

/-- C2 (evidence of the interpolation defect): two different one-candle
batches, one smuggling quote-comma text in market_name and the other in
start_time, build the identical statement text, so the built statement
does not represent the rows of the batch and string fields are not kept
apart by any escaping. -/
theorem upsert_statement_interpolation_collision :
    build_candles_upsert_statement
        [{ market_name := "x" ++ singleQuote ++ ", " ++ singleQuote ++ "y",
           start_time := "z", end_time := "e0", resolution := "r0",
           «open» := "1", close := "2", high := "3", low := "4",
           volume := "5", complete := true }] =
      build_candles_upsert_statement
        [{ market_name := "x",
           start_time := "y" ++ singleQuote ++ ", " ++ singleQuote ++ "z",
           end_time := "e0", resolution := "r0",
           «open» := "1", close := "2", high := "3", low := "4",
           volume := "5", complete := true }] ∧
    ({ market_name := "x" ++ singleQuote ++ ", " ++ singleQuote ++ "y",
       start_time := "z", end_time := "e0", resolution := "r0",
       «open» := "1", close := "2", high := "3", low := "4",
       volume := "5", complete := true } : Candle) ≠
      { market_name := "x",
        start_time := "y" ++ singleQuote ++ ", " ++ singleQuote ++ "z",
        end_time := "e0", resolution := "r0",
        «open» := "1", close := "2", high := "3", low := "4",
        volume := "5", complete := true } := by
  constructor
  · rfl
  · decide

/-- Row of the openbook.openbook_fill_events table as consumed by the
queries in fetch.rs: block_datetime (the event timestamp, referred to
as time by the ranking queries), market, bid, maker, price, size,
seq_num, instruction_num, open_orders_owner and the two native
quantities.  Timestamps are epoch seconds, numeric columns exact
rationals. -/
structure FillEvent where
  market : String
  time : Int
  bid : Bool
  maker : Bool
  price : ℤ
  size : ℤ
  seq_num : Int
  instruction_num : Int
  open_orders_owner : String
  native_quantity_paid : ℤ
  native_quantity_received : ℤ
deriving DecidableEq

/-- Typed SQL values as carried by a tokio_postgres row. -/
inductive PgValue where
  | timestamptz (t : Int)
  | text (s : String)
  | boolean (b : Bool)
  | float8 (q : ℤ)
deriving DecidableEq

/-- A result row is the list of its column values. -/
abbrev PgRow := List PgValue

/-- Reading column i at the Rust type DateTime.  A tokio_postgres get
with a mismatched Rust type aborts instead of converting, modelled as
none. -/
def getTimestamptz (r : PgRow) (i : Nat) : Option Int :=
  match r.get? i with
  | some (PgValue.timestamptz t) => some t
  | _ => none

/-- Reading column i at the Rust type bool, none on a type mismatch. -/
def getBool (r : PgRow) (i : Nat) : Option Bool :=
  match r.get? i with
  | some (PgValue.boolean b) => some b
  | _ => none

/-- Reading column i at the Rust type f64, none on a type mismatch. -/
def getFloat8 (r : PgRow) (i : Nat) : Option ℤ :=
  match r.get? i with
  | some (PgValue.float8 q) => some q
  | _ => none

/-- PgOpenBookFill, structs/openbook.rs lines 6 to 13. -/
structure PgOpenBookFill where
  time : Int
  bid : Bool
  maker : Bool
  price : ℤ
  size : ℤ
deriving DecidableEq

/-- Embedding of PgOpenBookFill::from_row (structs/openbook.rs lines 15
to 23): the struct fields are read from column indices 0, 1, 2, 3 and 4
at the field types. -/
def PgOpenBookFill.from_row (r : PgRow) : Option PgOpenBookFill :=
  (getTimestamptz r 0).bind fun t =>
  (getBool r 1).bind fun b =>
  (getBool r 2).bind fun mk =>
  (getFloat8 r 3).bind fun p =>
  (getFloat8 r 4).map fun s =>
  ⟨t, b, mk, p, s⟩

/-- Shape of a row returned by the SELECT of fetch_earliest_fill and
fetch_fills_from (fetch.rs lines 17 to 27 and 45 to 57): the columns
are time, market_key, bid, maker, price, size in that order, at the
table column types. -/
def fillSelectRow (e : FillEvent) : PgRow :=
  [PgValue.timestamptz e.time, PgValue.text e.market, PgValue.boolean e.bid,
   PgValue.boolean e.maker, PgValue.float8 e.price, PgValue.float8 e.size]

/-- The SQL interval of one day over epoch seconds. -/
def oneDay : Int := 86400

/-- All fills of one market. -/
def marketFills (evs : List FillEvent) (m : String) : List FillEvent :=
  evs.filter (fun e => decide (e.market = m))

/-- Fill selected by the markets CTE of fetch_coingecko_24h_high_low
(fetch.rs lines 289 to 306) for one market: a fill at the maximal
block_datetime, ties resolved towards the maximal instruction_num by
the row_number window, the first of any remaining full tie. -/
def latestStep (acc : Option FillEvent) (e : FillEvent) : Option FillEvent :=
  match acc with
  | none => some e
  | some b =>
    if e.time > b.time ∨ (e.time = b.time ∧ e.instruction_num > b.instruction_num) then
      some e
    else some b

def latestFill (evs : List FillEvent) (m : String) : Option FillEvent :=
  (marketFills evs m).foldl latestStep none

/-- The markets CTE itself: one row per distinct requested market that
has at least one fill at all, carrying the price of its latest fill.  A
requested market with no fills produces no row. -/
def marketsCTE (evs : List FillEvent) (ms : List String) : List (String × ℤ) :=
  ms.dedup.filterMap (fun m => (latestFill evs m).map (fun f => (m, f.price)))

/-- The one-day window of the high-low query, with the strict
comparison of fetch.rs line 332. -/
def windowFillsHL (now : Int) (evs : List FillEvent) (m : String) : List FillEvent :=
  (marketFills evs m).filter (fun e => decide (e.time > now - oneDay))

/-- Maximal instruction_num element, as selected by a row_number window
ordered by instruction_num desc; first of any full tie. -/
def instrStep (acc : Option FillEvent) (e : FillEvent) : Option FillEvent :=
  match acc with
  | none => some e
  | some b => if e.instruction_num > b.instruction_num then some e else some b

def maxByInstr (l : List FillEvent) : Option FillEvent :=
  l.foldl instrStep none

/-- Subquery a of fetch_coingecko_24h_high_low (fetch.rs lines 314 to
351) for one market: the window aggregates (max price, min price, max
block_datetime, max seq_num) are joined back to a fill that carries
both the window max block_datetime and the window max seq_num and whose
block_datetime is also the all-time maximum; the close is the price of
the top row_number match.  The row is absent when any join is empty. -/
def aRow (now : Int) (evs : List FillEvent) (m : String) : Option (ℤ × ℤ × ℤ) :=
  let w := windowFillsHL now evs m
  match (w.map (fun e => e.price)).max?, (w.map (fun e => e.price)).min?,
      (w.map (fun e => e.time)).max?, (w.map (fun e => e.seq_num)).max?,
      ((marketFills evs m).map (fun e => e.time)).max? with
  | some hi, some lo, some tmax, some smax, some tall =>
    let matched := (marketFills evs m).filter
      (fun e => decide (e.time = tmax) && decide (e.seq_num = smax) && decide (e.time = tall))
    (maxByInstr matched).map (fun e => (hi, lo, e.price))
  | _, _, _, _, _ => none

/-- PgCoinGecko24HourVolume, structs/coingecko.rs lines 35 to 40. -/
structure PgCoinGecko24HourVolume where
  address : String
  base_size : ℤ
  quote_size : ℤ
deriving DecidableEq

/-- PgCoinGecko24HighLow, structs/coingecko.rs lines 51 to 57. -/
structure PgCoinGecko24HighLow where
  address : String
  high : ℤ
  low : ℤ
  close : ℤ
deriving DecidableEq

/-- One output row of the high-low query: the markets CTE row, left
joined with subquery a, each null window column falling back on the
all-time close through coalesce. -/
def hlRow (now : Int) (evs : List FillEvent) (p : String × ℤ) : PgCoinGecko24HighLow :=
  match aRow now evs p.1 with
  | some (hi, lo, cl) => ⟨p.1, hi, lo, cl⟩
  | none => ⟨p.1, p.2, p.2, p.2⟩

/-- Embedding of the fetch_coingecko_24h_high_low query (fetch.rs lines
282 to 360). -/
def fetch_coingecko_24h_high_low (now : Int) (evs : List FillEvent) (ms : List String) :
    List PgCoinGecko24HighLow :=
  (marketsCTE evs ms).map (hlRow now evs)

/-- The one-day window of the volume query (fetch.rs lines 261 to 262):
non-strict time bound, and only fills with bid = true.  No condition on
maker appears in the query. -/
def volumeWindow (now : Int) (evs : List FillEvent) : List FillEvent :=
  evs.filter (fun e => decide (now - oneDay ≤ e.time) && e.bid)

/-- A grouped-by-market sum over a fill set, as an association list. -/
def groupSums (w : List FillEvent) (f : FillEvent → ℤ) : List (String × ℤ) :=
  ((w.map (fun e => e.market)).dedup).map
    (fun m => (m, ((w.filter (fun e => decide (e.market = m))).map f).sum))

/-- Embedding of the fetch_coingecko_24h_volume query (fetch.rs lines
244 to 280): one output row per element of the requested market array
(the unnest drives the FROM clause), left joined against the grouped
window sums of size and of size times price, with coalesce turning an
absent group into 0. -/
def fetch_coingecko_24h_volume (now : Int) (evs : List FillEvent) (ms : List String) :
    List PgCoinGecko24HourVolume :=
  let w := volumeWindow now evs
  let t2 := groupSums w (fun e => e.size)
  let t3 := groupSums w (fun e => e.size * e.price)
  ms.map (fun m => ⟨m, (t2.lookup m).getD 0, (t3.lookup m).getD 0⟩)

/-- PgTrader, from structs/trader.rs as used by fetch.rs: owner and the
two raw sums. -/
structure PgTrader where
  open_orders_owner : String
  raw_ask_size : ℤ
  raw_bid_size : ℤ
deriving DecidableEq

/-- Window filter shared by both trader ranking queries (fetch.rs lines
191 to 193 and 226 to 228): market and  half-open time window. -/
def windowTradeFills (evs : List FillEvent) (m : String) (t0 t1 : Int) : List FillEvent :=
  evs.filter (fun e => decide (e.market = m) && decide (t0 ≤ e.time) && decide (e.time < t1))

/-- Distinct accounts of the window, in first-appearance order (the
GROUP BY open_orders_owner key set). -/
def tradeOwners (evs : List FillEvent) (m : String) (t0 t1 : Int) : List String :=
  ((windowTradeFills evs m t0 t1).map (fun e => e.open_orders_owner)).dedup

/-- Fills of one account inside the window. -/
def ownerFills (evs : List FillEvent) (m : String) (t0 t1 : Int) (o : String) :
    List FillEvent :=
  (windowTradeFills evs m t0 t1).filter (fun e => decide (e.open_orders_owner = o))

/-- raw_ask_size of the by-base query (fetch.rs lines 184 to 186):
native_quantity_paid times the CASE that is 1 exactly when bid is
false. -/
def baseAskSize (evs : List FillEvent) (m : String) (t0 t1 : Int) (o : String) : ℤ :=
  ((ownerFills evs m t0 t1 o).map
    (fun e => e.native_quantity_paid * (if e.bid then 0 else 1))).sum

/-- raw_bid_size of the by-base query (fetch.rs lines 187 to 189):
native_quantity_received times the CASE that is 1 exactly when bid is
true. -/
def baseBidSize (evs : List FillEvent) (m : String) (t0 t1 : Int) (o : String) : ℤ :=
  ((ownerFills evs m t0 t1 o).map
    (fun e => e.native_quantity_received * (if e.bid then 1 else 0))).sum

/-- raw_ask_size of the by-quote query (fetch.rs lines 219 to 221):
native_quantity_received times the CASE that is 1 exactly when bid is
false. -/
def quoteAskSize (evs : List FillEvent) (m : String) (t0 t1 : Int) (o : String) : ℤ :=
  ((ownerFills evs m t0 t1 o).map
    (fun e => e.native_quantity_received * (if e.bid then 0 else 1))).sum

/-- raw_bid_size of the by-quote query (fetch.rs lines 222 to 224):
native_quantity_paid times the CASE that is 1 exactly when bid is
true. -/
def quoteBidSize (evs : List FillEvent) (m : String) (t0 t1 : Int) (o : String) : ℤ :=
  ((ownerFills evs m t0 t1 o).map
    (fun e => e.native_quantity_paid * (if e.bid then 1 else 0))).sum

/-- Descending order on combined volume, the ORDER BY of both ranking
queries. -/
def traderGE (t u : PgTrader) : Prop :=
  u.raw_ask_size + u.raw_bid_size ≤ t.raw_ask_size + t.raw_bid_size

instance : DecidableRel traderGE := fun t u =>
  inferInstanceAs (Decidable (u.raw_ask_size + u.raw_bid_size ≤ t.raw_ask_size + t.raw_bid_size))

instance : IsTotal PgTrader traderGE :=
  ⟨fun _ _ => le_total _ _⟩

instance : IsTrans PgTrader traderGE :=
  ⟨fun _ _ _ hab hbc => le_trans hbc hab⟩

/-- Embedding of fetch_top_traders_by_base_volume_from (fetch.rs lines
174 to 207): group the window fills by account, sum the base-mode
quantities, order by combined volume descending, keep 10000 rows. -/
def fetch_top_traders_by_base_volume_from (evs : List FillEvent) (m : String)
    (t0 t1 : Int) : List PgTrader :=
  (List.insertionSort traderGE
    ((tradeOwners evs m t0 t1).map
      (fun o => ⟨o, baseAskSize evs m t0 t1 o, baseBidSize evs m t0 t1 o⟩))).take 10000

/-- Embedding of fetch_top_traders_by_quote_volume_from (fetch.rs lines
209 to 242): identical shape, with the two native quantities swapped
between the ask and bid sums while the CASE conditions stay as in the
base query. -/
def fetch_top_traders_by_quote_volume_from (evs : List FillEvent) (m : String)
    (t0 t1 : Int) : List PgTrader :=
  (List.insertionSort traderGE
    ((tradeOwners evs m t0 t1).map
      (fun o => ⟨o, quoteAskSize evs m t0 t1 o, quoteBidSize evs m t0 t1 o⟩))).take 10000

/-- C9: decoding a row actually returned by fetch_earliest_fill or
fetch_fills_from through PgOpenBookFill::from_row fails instead of
producing a fill with shifted fields: column index 1, read as bool for
the bid field, is the text market_key column, so the decode aborts. -/
theorem from_row_fails_on_fill_query_rows (e : FillEvent) :
    PgOpenBookFill.from_row (fillSelectRow e) = none := rfl

theorem foldl_latestStep_isSome (l : List FillEvent) (b : FillEvent) :
    (l.foldl latestStep (some b)).isSome = true := by
  induction l generalizing b with
  | nil => rfl
  | cons e l ih =>
    rw [List.foldl_cons]
    have hstep : ∃ b', latestStep (some b) e = some b' := by
      unfold latestStep
      by_cases h : e.time > b.time ∨ (e.time = b.time ∧ e.instruction_num > b.instruction_num)
      · exact ⟨e, if_pos h⟩
      · exact ⟨b, if_neg h⟩
    obtain ⟨b', hb'⟩ := hstep
    rw [hb']
    exact ih b'

theorem latestFill_isSome_eq (evs : List FillEvent) (m : String) :
    (latestFill evs m).isSome = !(marketFills evs m).isEmpty := by
  unfold latestFill
  cases hl : marketFills evs m with
  | nil => rfl
  | cons e l =>
    rw [List.foldl_cons]
    have h1 : latestStep none e = some e := rfl
    rw [h1, foldl_latestStep_isSome]
    rfl

theorem filterMap_latest_fst (evs : List FillEvent) (l : List String) :
    ((l.filterMap (fun m => (latestFill evs m).map (fun f => (m, f.price)))).map
        (fun p => p.1)) =
      l.filter (fun m => (latestFill evs m).isSome) := by
  induction l with
  | nil => rfl
  | cons m l ih =>
    cases h : latestFill evs m with
    | none => simp [List.filterMap_cons, h, List.filter_cons, ih]
    | some f => simp [List.filterMap_cons, h, List.filter_cons, ih]

theorem hlRow_address (now : Int) (evs : List FillEvent) (p : String × ℤ) :
    (hlRow now evs p).address = p.1 := by
  unfold hlRow
  cases h : aRow now evs p.1 with
  | none => rfl
  | some t =>
    obtain ⟨hi, lo, cl⟩ := t
    rfl

/-- Counterexample for C4: a single requested market with no fills at
all yields no row from fetch_coingecko_24h_high_low, while the volume
query does return its defaulted row. -/
theorem snapshot_row_per_market_counterexample :
    fetch_coingecko_24h_high_low 0 [] ["m"] = [] ∧
    fetch_coingecko_24h_volume 0 [] ["m"] =
      [{ address := "m", base_size := 0, quote_size := 0 }] := by
  constructor
  · rfl
  · rfl

/-- C4 as amended: fetch_coingecko_24h_volume returns exactly one row
per entry of the requested market array, in order, defaulting to zero
sums; fetch_coingecko_24h_high_low returns exactly one row per distinct
requested market that has at least one fill, and no row at all for a
requested market with no fills. -/
theorem snapshot_rows_per_market (now : Int) (evs : List FillEvent) (ms : List String) :
    (fetch_coingecko_24h_volume now evs ms).map (fun r => r.address) = ms ∧
    (fetch_coingecko_24h_high_low now evs ms).map (fun r => r.address) =
      ms.dedup.filter (fun m => !(marketFills evs m).isEmpty) := by
  constructor
  · unfold fetch_coingecko_24h_volume
    rw [List.map_map]
    exact List.map_id ms
  · unfold fetch_coingecko_24h_high_low
    rw [List.map_map]
    have hcomp : ((fun r => PgCoinGecko24HighLow.address r) ∘ hlRow now evs) =
        fun p => p.1 := by
      funext p
      exact hlRow_address now evs p
    rw [hcomp]
    unfold marketsCTE
    rw [filterMap_latest_fst]
    exact List.filter_congr (fun m _ => latestFill_isSome_eq evs m)

theorem lookup_map_self {β : Type} (l : List String) (g : String → β) (m : String) :
    ((l.map (fun k => (k, g k))).lookup m) = if m ∈ l then some (g m) else none := by
  induction l with
  | nil => rfl
  | cons k l ih =>
    by_cases h : m = k
    · subst h
      simp [List.lookup]
    · have hbeq : (m == k) = false := beq_eq_false_iff_ne.mpr h
      simp [List.lookup, hbeq, h, ih]

theorem find?_filterMap_addr {β : Type} (addr : β → String) (gen : String → Option β)
    (hgen : ∀ m r, gen m = some r → addr r = m)
    (l : List String) (m : String) (hm : m ∈ l) (r : β) (hr : gen m = some r) :
    (l.filterMap gen).find? (fun x => decide (addr x = m)) = some r := by
  induction l with
  | nil => cases hm
  | cons m' l ih =>
    by_cases he : m' = m
    · subst he
      rw [List.filterMap_cons, hr]
      simp [List.find?_cons, hgen m' r hr]
    · rcases List.mem_cons.mp hm with h1 | h1
      · exact absurd h1.symm he
      · cases hg : gen m' with
        | none =>
          rw [List.filterMap_cons, hg]
          exact ih h1
        | some r' =>
          rw [List.filterMap_cons, hg]
          have hne : ¬ addr r' = m := by
            rw [hgen m' r' hg]
            exact he
          simp [List.find?_cons, hne, ih h1]

theorem find?_map_addr {β : Type} (addr : β → String) (gen : String → β)
    (hgen : ∀ m', addr (gen m') = m') (l : List String) (m : String) (hm : m ∈ l) :
    (l.map gen).find? (fun x => decide (addr x = m)) = some (gen m) := by
  induction l with
  | nil => cases hm
  | cons m' l ih =>
    by_cases he : m' = m
    · subst he
      simp [List.find?_cons, hgen]
    · have hne : ¬ addr (gen m') = m := by
        rw [hgen m']
        exact he
      rcases List.mem_cons.mp hm with h1 | h1
      · exact absurd h1.symm he
      · simp [List.find?_cons, hne, ih h1]

theorem aRow_eq_none_of_empty_window (now : Int) (evs : List FillEvent) (m : String)
    (hw : windowFillsHL now evs m = []) : aRow now evs m = none := by
  simp only [aRow, hw, List.map_nil]
  rfl

theorem volume_lookup_getD (now : Int) (evs : List FillEvent) (f : FillEvent → ℤ) (m : String) :
    (((groupSums (volumeWindow now evs) f).lookup m).getD 0) =
      (((volumeWindow now evs).filter (fun e => decide (e.market = m))).map f).sum := by
  unfold groupSums
  rw [lookup_map_self]
  by_cases h : m ∈ ((volumeWindow now evs).map (fun e => e.market)).dedup
  · rw [if_pos h]
    rfl
  · rw [if_neg h]
    have hnil : (volumeWindow now evs).filter (fun e => decide (e.market = m)) = [] := by
      rw [List.filter_eq_nil_iff]
      intro e he
      simp only [decide_eq_true_eq]
      intro hem
      exact h (List.mem_dedup.mpr (hem ▸ List.mem_map_of_mem (fun e => e.market) he))
    rw [hnil]
    rfl

/-- C6: for a requested market with a nonzero all-time fill history but
no fill inside the last day, the snapshot row of
fetch_coingecko_24h_high_low carries the all-time last traded price in
all three of high_24h, low_24h and close_24h, and the row of
fetch_coingecko_24h_volume carries 0 (not null) in both sums. -/
theorem snapshot_fallback (now : Int) (evs : List FillEvent) (ms : List String) (m : String)
    (hm : m ∈ ms) (hhist : marketFills evs m ≠ [])
    (hwin : ∀ e ∈ evs, e.market = m → e.time < now - oneDay) :
    ∃ f, latestFill evs m = some f ∧
      (fetch_coingecko_24h_high_low now evs ms).find? (fun r => decide (r.address = m)) =
        some ⟨m, f.price, f.price, f.price⟩ ∧
      (fetch_coingecko_24h_volume now evs ms).find? (fun r => decide (r.address = m)) =
        some ⟨m, 0, 0⟩ := by
  have hsome : (latestFill evs m).isSome := by
    rw [latestFill_isSome_eq]
    cases hl : marketFills evs m with
    | nil => exact absurd hl hhist
    | cons e l => rfl
  obtain ⟨f, hf⟩ := Option.isSome_iff_exists.mp hsome
  have hwnil : windowFillsHL now evs m = [] := by
    rw [windowFillsHL, List.filter_eq_nil_iff]
    intro e he
    simp only [decide_eq_true_eq]
    have hmem := List.mem_filter.mp he
    have hmkt : e.market = m := by simpa using hmem.2
    have hlt := hwin e hmem.1 hmkt
    exact fun hgt => absurd hlt (not_lt.mpr (le_of_lt hgt))
  have haRow : aRow now evs m = none := aRow_eq_none_of_empty_window now evs m hwnil
  refine ⟨f, hf, ?_, ?_⟩
  · unfold fetch_coingecko_24h_high_low marketsCTE
    rw [List.map_filterMap]
    refine find?_filterMap_addr (fun r => PgCoinGecko24HighLow.address r)
      (fun m' => ((latestFill evs m').map (fun g => (m', g.price))).map (hlRow now evs))
      ?_ ms.dedup m (List.mem_dedup.mpr hm) ⟨m, f.price, f.price, f.price⟩ ?_
    · intro m' r hr
      have hr' : Option.map (hlRow now evs)
          (Option.map (fun g => (m', g.price)) (latestFill evs m')) = some r := hr
      cases hlf : latestFill evs m' with
      | none =>
        rw [hlf] at hr'
        cases hr'
      | some g =>
        rw [hlf] at hr'
        have hEq : hlRow now evs (m', g.price) = r := Option.some.inj hr'
        show r.address = m'
        rw [← hEq]
        exact hlRow_address now evs (m', g.price)
    · show Option.map (hlRow now evs)
        (Option.map (fun g => (m, g.price)) (latestFill evs m)) =
          some ⟨m, f.price, f.price, f.price⟩
      rw [hf]
      have hEq : hlRow now evs (m, f.price) = ⟨m, f.price, f.price, f.price⟩ := by
        unfold hlRow
        rw [haRow]
      show some (hlRow now evs (m, f.price)) =
        some (⟨m, f.price, f.price, f.price⟩ : PgCoinGecko24HighLow)
      rw [hEq]
  · simp only [fetch_coingecko_24h_volume]
    rw [find?_map_addr (fun r => PgCoinGecko24HourVolume.address r) _ (fun m' => rfl) ms m hm]
    have hflt : (volumeWindow now evs).filter (fun e => decide (e.market = m)) = [] := by
      rw [List.filter_eq_nil_iff]
      intro e he
      simp only [decide_eq_true_eq]
      intro hem
      have hmem := List.mem_filter.mp he
      have hcond : (decide (now - oneDay ≤ e.time) && e.bid) = true := hmem.2
      have hle : now - oneDay ≤ e.time := by
        have := (Bool.and_eq_true _ _).mp hcond
        simpa using this.1
      exact absurd hle (not_le.mpr (hwin e hmem.1 hem))
    refine congrArg some ?_
    show (⟨m, ((groupSums (volumeWindow now evs) (fun e => e.size)).lookup m).getD 0,
      ((groupSums (volumeWindow now evs) (fun e => e.size * e.price)).lookup m).getD 0⟩ :
        PgCoinGecko24HourVolume) = ⟨m, 0, 0⟩
    rw [volume_lookup_getD, volume_lookup_getD, hflt]
    rfl

/-- Witness for C6: one market whose only fill is far older than one
day, requested alone at time 0. -/
theorem snapshot_fallback_witness :
    (fetch_coingecko_24h_high_low 0 [⟨"m", -100000, true, true, 11, 4, 9, 9, "a", 1, 2⟩]
        ["m"]).find? (fun r => decide (r.address = "m")) =
      some ⟨"m", 11, 11, 11⟩ ∧
    (fetch_coingecko_24h_volume 0 [⟨"m", -100000, true, true, 11, 4, 9, 9, "a", 1, 2⟩]
        ["m"]).find? (fun r => decide (r.address = "m")) =
      some ⟨"m", 0, 0⟩ := by
  obtain ⟨f, hf, h1, h2⟩ := snapshot_fallback 0
    [⟨"m", -100000, true, true, 11, 4, 9, 9, "a", 1, 2⟩] ["m"] "m"
    (by decide) (by decide) (by decide)
  have hfe : f = ⟨"m", -100000, true, true, 11, 4, 9, 9, "a", 1, 2⟩ := by
    have hlf : latestFill [⟨"m", -100000, true, true, 11, 4, 9, 9, "a", 1, 2⟩] "m" =
        some ⟨"m", -100000, true, true, 11, 4, 9, 9, "a", 1, 2⟩ := by decide
    exact Option.some.inj (hf.symm.trans hlf)
  subst hfe
  exact ⟨h1, h2⟩

/-- Counterexample for C3: a single fill with maker = false (a pure
taker leg) and bid = true fully determines both snapshots: it is
counted in both volume sums and it alone supplies high, low and close,
although the maker-only reading of the claim would leave the volume at
0 and provide no price from this fill. -/
theorem snapshot_maker_counterexample :
    fetch_coingecko_24h_volume 0 [⟨"m", 0, true, false, 3, 2, 1, 1, "a", 5, 7⟩] ["m"] =
      [⟨"m", 2, 6⟩] ∧
    fetch_coingecko_24h_high_low 0 [⟨"m", 0, true, false, 3, 2, 1, 1, "a", 5, 7⟩] ["m"] =
      [⟨"m", 3, 3, 3⟩] ∧
    (⟨"m", 0, true, false, 3, 2, 1, 1, "a", 5, 7⟩ : FillEvent).maker = false ∧
    (2 : ℤ) ≠ 0 :=
  ⟨by decide, by decide, rfl, by decide⟩

/-- Reassignment of the maker flag of a fill, leaving every other
column unchanged. -/
def setMaker (g : FillEvent → Bool) (e : FillEvent) : FillEvent := { e with maker := g e }

theorem marketFills_setMaker (evs : List FillEvent) (g : FillEvent → Bool) (m : String) :
    marketFills (evs.map (setMaker g)) m = (marketFills evs m).map (setMaker g) := by
  unfold marketFills
  rw [List.filter_map]
  rfl

theorem windowFillsHL_setMaker (now : Int) (evs : List FillEvent) (g : FillEvent → Bool)
    (m : String) :
    windowFillsHL now (evs.map (setMaker g)) m = (windowFillsHL now evs m).map (setMaker g) := by
  unfold windowFillsHL
  rw [marketFills_setMaker, List.filter_map]
  rfl

theorem map_price_setMaker (l : List FillEvent) (g : FillEvent → Bool) :
    (l.map (setMaker g)).map (fun e => e.price) = l.map (fun e => e.price) := by
  rw [List.map_map]
  rfl

theorem map_time_setMaker (l : List FillEvent) (g : FillEvent → Bool) :
    (l.map (setMaker g)).map (fun e => e.time) = l.map (fun e => e.time) := by
  rw [List.map_map]
  rfl

theorem map_seq_setMaker (l : List FillEvent) (g : FillEvent → Bool) :
    (l.map (setMaker g)).map (fun e => e.seq_num) = l.map (fun e => e.seq_num) := by
  rw [List.map_map]
  rfl

theorem foldl_latestStep_setMaker (l : List FillEvent) (g : FillEvent → Bool) :
    ∀ acc : Option FillEvent,
      (l.map (setMaker g)).foldl latestStep (acc.map (setMaker g)) =
        (l.foldl latestStep acc).map (setMaker g) := by
  induction l with
  | nil => intro acc; rfl
  | cons e l ih =>
    intro acc
    rw [List.map_cons, List.foldl_cons, List.foldl_cons]
    have hstep : latestStep (acc.map (setMaker g)) (setMaker g e) =
        (latestStep acc e).map (setMaker g) := by
      cases acc with
      | none => rfl
      | some b =>
        show latestStep (some (setMaker g b)) (setMaker g e) =
          (latestStep (some b) e).map (setMaker g)
        simp only [latestStep]
        rw [apply_ite (Option.map (setMaker g))]
        split_ifs with h1 h2 h3
        · rfl
        · exact absurd h1 h2
        · exact absurd h3 h1
        · rfl
    rw [hstep]
    exact ih (latestStep acc e)

theorem latestFill_setMaker (evs : List FillEvent) (g : FillEvent → Bool) (m : String) :
    latestFill (evs.map (setMaker g)) m = (latestFill evs m).map (setMaker g) := by
  unfold latestFill
  rw [marketFills_setMaker]
  exact foldl_latestStep_setMaker (marketFills evs m) g none

theorem foldl_instrStep_setMaker (l : List FillEvent) (g : FillEvent → Bool) :
    ∀ acc : Option FillEvent,
      (l.map (setMaker g)).foldl instrStep (acc.map (setMaker g)) =
        (l.foldl instrStep acc).map (setMaker g) := by
  induction l with
  | nil => intro acc; rfl
  | cons e l ih =>
    intro acc
    rw [List.map_cons, List.foldl_cons, List.foldl_cons]
    have hstep : instrStep (acc.map (setMaker g)) (setMaker g e) =
        (instrStep acc e).map (setMaker g) := by
      cases acc with
      | none => rfl
      | some b =>
        show instrStep (some (setMaker g b)) (setMaker g e) =
          (instrStep (some b) e).map (setMaker g)
        simp only [instrStep]
        rw [apply_ite (Option.map (setMaker g))]
        split_ifs with h1 h2 h3
        · rfl
        · exact absurd h1 h2
        · exact absurd h3 h1
        · rfl
    rw [hstep]
    exact ih (instrStep acc e)

theorem maxByInstr_setMaker (l : List FillEvent) (g : FillEvent → Bool) :
    maxByInstr (l.map (setMaker g)) = (maxByInstr l).map (setMaker g) := by
  unfold maxByInstr
  exact foldl_instrStep_setMaker l g none

theorem matched_setMaker (l : List FillEvent) (g : FillEvent → Bool) (tmax smax tall : Int) :
    (l.map (setMaker g)).filter
        (fun e => decide (e.time = tmax) && decide (e.seq_num = smax) && decide (e.time = tall)) =
      (l.filter
        (fun e => decide (e.time = tmax) && decide (e.seq_num = smax) &&
          decide (e.time = tall))).map (setMaker g) := by
  rw [List.filter_map]
  rfl

theorem omap_close_setMaker (o : Option FillEvent) (g : FillEvent → Bool) (hi lo : ℤ) :
    (o.map (setMaker g)).map (fun e => (hi, lo, e.price)) =
      o.map (fun e => (hi, lo, e.price)) := by
  cases o <;> rfl

theorem omap_pair_setMaker (o : Option FillEvent) (g : FillEvent → Bool) (m : String) :
    (o.map (setMaker g)).map (fun f => (m, f.price)) = o.map (fun f => (m, f.price)) := by
  cases o <;> rfl

theorem aRow_setMaker (now : Int) (evs : List FillEvent) (g : FillEvent → Bool) (m : String) :
    aRow now (evs.map (setMaker g)) m = aRow now evs m := by
  unfold aRow
  rw [windowFillsHL_setMaker, marketFills_setMaker]
  simp only [map_price_setMaker, map_time_setMaker, map_seq_setMaker, matched_setMaker,
    maxByInstr_setMaker, omap_close_setMaker]

theorem marketsCTE_setMaker (evs : List FillEvent) (g : FillEvent → Bool) (ms : List String) :
    marketsCTE (evs.map (setMaker g)) ms = marketsCTE evs ms := by
  unfold marketsCTE
  simp only [latestFill_setMaker, omap_pair_setMaker]

/-- C3 as amended: the maker column plays no role in either snapshot
query.  The volume query sums size (resp. size times price) over
exactly the window fills with bid = true, maker or taker alike, and
both query results are unchanged under any reassignment of the maker
flags. -/
theorem snapshot_engines_ignore_maker (now : Int) (evs : List FillEvent) (ms : List String) :
    fetch_coingecko_24h_volume now evs ms =
      ms.map (fun m =>
        ⟨m,
         ((evs.filter (fun e =>
             decide (e.market = m) && (decide (now - oneDay ≤ e.time) && e.bid))).map
           (fun e => e.size)).sum,
         ((evs.filter (fun e =>
             decide (e.market = m) && (decide (now - oneDay ≤ e.time) && e.bid))).map
           (fun e => e.size * e.price)).sum⟩) ∧
    (∀ g : FillEvent → Bool,
      fetch_coingecko_24h_high_low now (evs.map (setMaker g)) ms =
        fetch_coingecko_24h_high_low now evs ms) ∧
    (∀ g : FillEvent → Bool,
      fetch_coingecko_24h_volume now (evs.map (setMaker g)) ms =
        fetch_coingecko_24h_volume now evs ms) := by
  have hvol : ∀ evs' : List FillEvent, fetch_coingecko_24h_volume now evs' ms =
      ms.map (fun m =>
        ⟨m,
         ((evs'.filter (fun e =>
             decide (e.market = m) && (decide (now - oneDay ≤ e.time) && e.bid))).map
           (fun e => e.size)).sum,
         ((evs'.filter (fun e =>
             decide (e.market = m) && (decide (now - oneDay ≤ e.time) && e.bid))).map
           (fun e => e.size * e.price)).sum⟩) := by
    intro evs'
    simp only [fetch_coingecko_24h_volume]
    refine List.map_congr_left ?_
    intro m _
    rw [volume_lookup_getD, volume_lookup_getD]
    unfold volumeWindow
    rw [List.filter_filter]
  refine ⟨hvol evs, ?_, ?_⟩
  · intro g
    unfold fetch_coingecko_24h_high_low
    rw [marketsCTE_setMaker]
    refine List.map_congr_left ?_
    intro p _
    unfold hlRow
    rw [aRow_setMaker]
  · intro g
    rw [hvol (evs.map (setMaker g)), hvol evs]
    refine List.map_congr_left ?_
    intro m _
    have hflt : (evs.map (setMaker g)).filter (fun e =>
        decide (e.market = m) && (decide (now - oneDay ≤ e.time) && e.bid)) =
        (evs.filter (fun e =>
          decide (e.market = m) && (decide (now - oneDay ≤ e.time) && e.bid))).map
          (setMaker g) := by
      rw [List.filter_map]
      rfl
    rw [hflt, List.map_map, List.map_map]
    rfl

theorem sum_mul_case_false (l : List FillEvent) (f : FillEvent → ℤ) :
    (l.map (fun e => f e * (if e.bid then 0 else 1))).sum =
      ((l.filter (fun e => !e.bid)).map f).sum := by
  induction l with
  | nil => rfl
  | cons e l ih =>
    rw [List.map_cons, List.sum_cons, List.filter_cons, ih]
    by_cases h : e.bid = true
    · simp [h]
    · simp [h]

theorem sum_mul_case_true (l : List FillEvent) (f : FillEvent → ℤ) :
    (l.map (fun e => f e * (if e.bid then 1 else 0))).sum =
      ((l.filter (fun e => e.bid)).map f).sum := by
  induction l with
  | nil => rfl
  | cons e l ih =>
    rw [List.map_cons, List.sum_cons, List.filter_cons, ih]
    by_cases h : e.bid = true
    · simp [h]
    · simp [h]

theorem mem_ranked (rows : List PgTrader) (r : PgTrader)
    (hr : r ∈ (List.insertionSort traderGE rows).take 10000) : r ∈ rows := by
  have h1 : r ∈ List.insertionSort traderGE rows := (List.take_sublist _ _).subset hr
  exact (List.perm_insertionSort traderGE rows).subset h1

/-- Counterexample for C5: one single fill on the bid side with
native_quantity_paid 5 and native_quantity_received 7.  The by-quote
query credits the account with ask_size 0 and bid_size 5, while the
claim (ask_size as the received sum over side = bid, bid_size as the
paid sum over side = ask) would demand ask_size 7 and bid_size 0. -/
theorem quote_mode_counterexample :
    fetch_top_traders_by_quote_volume_from
        [⟨"m", 0, true, true, 3, 2, 1, 1, "a", 5, 7⟩] "m" 0 1 =
      [⟨"a", 0, 5⟩] ∧
    ((([⟨"m", 0, true, true, 3, 2, 1, 1, "a", 5, 7⟩] : List FillEvent).filter
        (fun e => e.bid)).map (fun e => e.native_quantity_received)).sum = 7 ∧
    (0 : ℤ) ≠ 7 :=
  ⟨by decide, by decide, by decide⟩

/-- C5 as amended: in the by-quote mode each account gets ask_size as
the sum of native_quantity_received over its fills with side = ask and
bid_size as the sum of native_quantity_paid over its fills with
side = bid; relative to the by-base mode the two native quantities
swap while the side conditions stay fixed. -/
theorem quote_mode_swaps_quantities_not_sides (evs : List FillEvent) (m : String)
    (t0 t1 : Int) :
    (∀ r ∈ fetch_top_traders_by_quote_volume_from evs m t0 t1,
      r.raw_ask_size =
        (((ownerFills evs m t0 t1 r.open_orders_owner).filter (fun e => !e.bid)).map
          (fun e => e.native_quantity_received)).sum ∧
      r.raw_bid_size =
        (((ownerFills evs m t0 t1 r.open_orders_owner).filter (fun e => e.bid)).map
          (fun e => e.native_quantity_paid)).sum) ∧
    (∀ r ∈ fetch_top_traders_by_base_volume_from evs m t0 t1,
      r.raw_ask_size =
        (((ownerFills evs m t0 t1 r.open_orders_owner).filter (fun e => !e.bid)).map
          (fun e => e.native_quantity_paid)).sum ∧
      r.raw_bid_size =
        (((ownerFills evs m t0 t1 r.open_orders_owner).filter (fun e => e.bid)).map
          (fun e => e.native_quantity_received)).sum) := by
  constructor
  · intro r hr
    obtain ⟨o, ho, rfl⟩ := List.mem_map.mp (mem_ranked _ r hr)
    refine ⟨?_, ?_⟩
    · show quoteAskSize evs m t0 t1 o = _
      unfold quoteAskSize
      exact sum_mul_case_false _ _
    · show quoteBidSize evs m t0 t1 o = _
      unfold quoteBidSize
      exact sum_mul_case_true _ _
  · intro r hr
    obtain ⟨o, ho, rfl⟩ := List.mem_map.mp (mem_ranked _ r hr)
    refine ⟨?_, ?_⟩
    · show baseAskSize evs m t0 t1 o = _
      unfold baseAskSize
      exact sum_mul_case_false _ _
    · show baseBidSize evs m t0 t1 o = _
      unfold baseBidSize
      exact sum_mul_case_true _ _

/-- Witness for C5 at the one-fill input of the counterexample. -/
theorem quote_mode_swaps_quantities_not_sides_witness :
    (⟨"a", 0, 5⟩ : PgTrader).raw_ask_size =
      (((ownerFills [⟨"m", 0, true, true, 3, 2, 1, 1, "a", 5, 7⟩] "m" 0 1
          (⟨"a", 0, 5⟩ : PgTrader).open_orders_owner).filter (fun e => !e.bid)).map
        (fun e => e.native_quantity_received)).sum ∧
    (⟨"a", 0, 5⟩ : PgTrader).raw_bid_size =
      (((ownerFills [⟨"m", 0, true, true, 3, 2, 1, 1, "a", 5, 7⟩] "m" 0 1
          (⟨"a", 0, 5⟩ : PgTrader).open_orders_owner).filter (fun e => e.bid)).map
        (fun e => e.native_quantity_paid)).sum :=
  (quote_mode_swaps_quantities_not_sides
    [⟨"m", 0, true, true, 3, 2, 1, 1, "a", 5, 7⟩] "m" 0 1).1 ⟨"a", 0, 5⟩ (by decide)

theorem ranked_take_spec (owners : List String) (mk : String → PgTrader)
    (hmk : ∀ o, (mk o).open_orders_owner = o) :
    List.Sorted traderGE ((List.insertionSort traderGE (owners.map mk)).take 10000) ∧
    ((List.insertionSort traderGE (owners.map mk)).take 10000).length =
      min 10000 owners.length ∧
    (∀ o ∈ owners,
      (∀ r ∈ (List.insertionSort traderGE (owners.map mk)).take 10000,
        r.open_orders_owner ≠ o) →
      ∀ r ∈ (List.insertionSort traderGE (owners.map mk)).take 10000, traderGE r (mk o)) ∧
    (owners.length ≤ 10000 → ∀ o ∈ owners,
      mk o ∈ (List.insertionSort traderGE (owners.map mk)).take 10000) := by
  have hperm := List.perm_insertionSort traderGE (owners.map mk)
  have hsorted := List.sorted_insertionSort traderGE (owners.map mk)
  refine ⟨?_, ?_, ?_, ?_⟩
  · exact List.Pairwise.sublist (List.take_sublist _ _) hsorted
  · rw [List.length_take, hperm.length_eq, List.length_map]
  · intro o ho hexcl r hr
    have hmem : mk o ∈ List.insertionSort traderGE (owners.map mk) :=
      hperm.mem_iff.mpr (List.mem_map_of_mem mk ho)
    have happ : List.insertionSort traderGE (owners.map mk) =
        (List.insertionSort traderGE (owners.map mk)).take 10000 ++
          (List.insertionSort traderGE (owners.map mk)).drop 10000 :=
      (List.take_append_drop _ _).symm
    have hpw : List.Pairwise traderGE
        ((List.insertionSort traderGE (owners.map mk)).take 10000 ++
          (List.insertionSort traderGE (owners.map mk)).drop 10000) := by
      rw [← happ]
      exact hsorted
    have hdrop : mk o ∈ (List.insertionSort traderGE (owners.map mk)).drop 10000 := by
      rcases List.mem_append.mp (happ ▸ hmem) with h | h
      · exact absurd (hmk o) (hexcl _ h)
      · exact h
    exact (List.pairwise_append.mp hpw).2.2 r hr (mk o) hdrop
  · intro hlen o ho
    have htake : (List.insertionSort traderGE (owners.map mk)).take 10000 =
        List.insertionSort traderGE (owners.map mk) := by
      apply List.take_of_length_le
      rw [hperm.length_eq, List.length_map]
      exact hlen
    rw [htake]
    exact hperm.mem_iff.mpr (List.mem_map_of_mem mk ho)

/-- C8: each trader ranking query returns its rows ordered by combined
volume descending; it returns min(10000, number of distinct accounts in
the window) rows; every account of the window that is absent from the
output ranks no higher than any returned row; and when at most 10000
distinct accounts trade in the window every one of them is returned. -/
theorem top_traders_ranking (evs : List FillEvent) (m : String) (t0 t1 : Int) :
    (List.Sorted traderGE (fetch_top_traders_by_base_volume_from evs m t0 t1) ∧
     (fetch_top_traders_by_base_volume_from evs m t0 t1).length =
       min 10000 (tradeOwners evs m t0 t1).length ∧
     (∀ o ∈ tradeOwners evs m t0 t1,
       (∀ r ∈ fetch_top_traders_by_base_volume_from evs m t0 t1,
         r.open_orders_owner ≠ o) →
       ∀ r ∈ fetch_top_traders_by_base_volume_from evs m t0 t1,
         traderGE r ⟨o, baseAskSize evs m t0 t1 o, baseBidSize evs m t0 t1 o⟩) ∧
     ((tradeOwners evs m t0 t1).length ≤ 10000 → ∀ o ∈ tradeOwners evs m t0 t1,
       (⟨o, baseAskSize evs m t0 t1 o, baseBidSize evs m t0 t1 o⟩ : PgTrader) ∈
         fetch_top_traders_by_base_volume_from evs m t0 t1)) ∧
    (List.Sorted traderGE (fetch_top_traders_by_quote_volume_from evs m t0 t1) ∧
     (fetch_top_traders_by_quote_volume_from evs m t0 t1).length =
       min 10000 (tradeOwners evs m t0 t1).length ∧
     (∀ o ∈ tradeOwners evs m t0 t1,
       (∀ r ∈ fetch_top_traders_by_quote_volume_from evs m t0 t1,
         r.open_orders_owner ≠ o) →
       ∀ r ∈ fetch_top_traders_by_quote_volume_from evs m t0 t1,
         traderGE r ⟨o, quoteAskSize evs m t0 t1 o, quoteBidSize evs m t0 t1 o⟩) ∧
     ((tradeOwners evs m t0 t1).length ≤ 10000 → ∀ o ∈ tradeOwners evs m t0 t1,
       (⟨o, quoteAskSize evs m t0 t1 o, quoteBidSize evs m t0 t1 o⟩ : PgTrader) ∈
         fetch_top_traders_by_quote_volume_from evs m t0 t1)) :=
  ⟨ranked_take_spec (tradeOwners evs m t0 t1)
      (fun o => ⟨o, baseAskSize evs m t0 t1 o, baseBidSize evs m t0 t1 o⟩)
      (fun _ => rfl),
   ranked_take_spec (tradeOwners evs m t0 t1)
      (fun o => ⟨o, quoteAskSize evs m t0 t1 o, quoteBidSize evs m t0 t1 o⟩)
      (fun _ => rfl)⟩

/-- Witness for C8: two accounts inside the window, both returned and
counted. -/
theorem top_traders_ranking_witness :
    (⟨"a", 0, 7⟩ : PgTrader) ∈ fetch_top_traders_by_base_volume_from
        [⟨"m", 0, true, true, 3, 2, 1, 1, "a", 5, 7⟩,
         ⟨"m", 1, false, true, 4, 1, 2, 2, "b", 9, 11⟩] "m" 0 10 ∧
    (fetch_top_traders_by_base_volume_from
        [⟨"m", 0, true, true, 3, 2, 1, 1, "a", 5, 7⟩,
         ⟨"m", 1, false, true, 4, 1, 2, 2, "b", 9, 11⟩] "m" 0 10).length = 2 := by
  have h := top_traders_ranking
    [⟨"m", 0, true, true, 3, 2, 1, 1, "a", 5, 7⟩,
     ⟨"m", 1, false, true, 4, 1, 2, 2, "b", 9, 11⟩] "m" 0 10
  constructor
  · have h4 := h.1.2.2.2 (by decide) "a" (by decide)
    have heq : (⟨"a",
        baseAskSize [⟨"m", 0, true, true, 3, 2, 1, 1, "a", 5, 7⟩,
          ⟨"m", 1, false, true, 4, 1, 2, 2, "b", 9, 11⟩] "m" 0 10 "a",
        baseBidSize [⟨"m", 0, true, true, 3, 2, 1, 1, "a", 5, 7⟩,
          ⟨"m", 1, false, true, 4, 1, 2, 2, "b", 9, 11⟩] "m" 0 10 "a"⟩ : PgTrader) =
        ⟨"a", 0, 7⟩ := by decide
    exact heq ▸ h4
  · exact (h.1.2.1).trans (by decide)

/-- Witness for C9 at a concrete fill event. -/
theorem from_row_fails_on_fill_query_rows_witness :
    PgOpenBookFill.from_row (fillSelectRow ⟨"m", 0, true, true, 3, 2, 1, 1, "a", 5, 7⟩) =
      none :=
  from_row_fails_on_fill_query_rows ⟨"m", 0, true, true, 3, 2, 1, 1, "a", 5, 7⟩

/-- Witness for C3 as amended: the characterization evaluated at a
two-market request with one taker fill. -/
theorem snapshot_engines_ignore_maker_witness :
    fetch_coingecko_24h_volume 0 [⟨"m", 0, true, false, 3, 2, 1, 1, "a", 5, 7⟩] ["m", "x"] =
      [⟨"m", 2, 6⟩, ⟨"x", 0, 0⟩] :=
  (snapshot_engines_ignore_maker 0
    [⟨"m", 0, true, false, 3, 2, 1, 1, "a", 5, 7⟩] ["m", "x"]).1.trans (by decide)

/-- Witness for C4 as amended, at the empty event log. -/
theorem snapshot_rows_per_market_witness :
    (fetch_coingecko_24h_volume 0 [] ["m"]).map (fun r => r.address) = ["m"] ∧
    (fetch_coingecko_24h_high_low 0 [] ["m"]).map (fun r => r.address) = [] :=
  ⟨(snapshot_rows_per_market 0 [] ["m"]).1,
   (snapshot_rows_per_market 0 [] ["m"]).2.trans (by decide)⟩
